import Mathlib

/-!
Shallow embedding of the distributed-training utility layer of the
Pytorch-template repository (`src/utils/misc.py` and
`src/datasets/modules/data_module_base.py`), with proofs of the spec's
claims about it.

Modelling conventions: tensors are lists of rationals (element-wise
arithmetic, exact division in place of float division); opaque framework
state dicts are natural-number identifiers; Python dicts are association
lists that keep insertion order; fallible code returns `Except String`.
-/

/-! ## DistMisc: rank / world-size queries (misc.py lines 366-380) -/

/-- The state of `torch.distributed` as the queries observe it. -/
structure DistState where
  available : Bool
  inited : Bool
  worldSize : ℕ
  rank : ℕ

namespace DistMisc

/-- `dist.is_available() and dist.is_initialized()`. -/
def is_dist_avail_and_initialized (d : DistState) : Bool :=
  d.available && d.inited

/-- `dist.get_world_size()` when the process group is up, else 1. -/
def get_world_size (d : DistState) : ℕ :=
  if is_dist_avail_and_initialized d then d.worldSize else 1

/-- `dist.get_rank()` when the process group is up, else 0. -/
def get_rank (d : DistState) : ℕ :=
  if is_dist_avail_and_initialized d then d.rank else 0

/-- `DistMisc.is_main_process`: rank zero. -/
def is_main_process (d : DistState) : Bool :=
  get_rank d == 0

end DistMisc

/-! ## DistMisc.reduce_sum / reduce_mean (misc.py lines 351-364)

Tensors live in a store (a list of buffers) so that in-place mutation by
`dist.all_reduce` and the `clone()` that guards against it are visible: a
tensor value held by the caller is an index into the store.  `others` is
the list of the corresponding tensors held by the other ranks, so the SUM
all-reduce folds them onto the local value. -/

abbrev Tensor9 := List ℚ

/-- Element-wise tensor addition (shapes agree in every use below). -/
def addTensor (a b : Tensor9) : Tensor9 := List.zipWith (· + ·) a b

structure TensorStore where
  tensors : List Tensor9
deriving Repr

namespace DistMisc

/-- `reduce_sum`: below 2 ranks return the argument itself; otherwise clone
the tensor and SUM-all-reduce the clone in place, returning the clone. -/
def reduce_sum (world_size : ℕ) (others : List Tensor9) (st : TensorStore)
    (i : ℕ) : TensorStore × ℕ :=
  if world_size < 2 then (st, i)
  else
    let t := st.tensors.getD i []
    let j := st.tensors.length
    let summed := others.foldl addTensor t
    (⟨(st.tensors ++ [t]).set j summed⟩, j)

/-- `reduce_mean`: the reduced sum, cast to float and divided by the world
size (exact rational division models the float arithmetic). -/
def reduce_mean (world_size : ℕ) (others : List Tensor9) (st : TensorStore)
    (i : ℕ) : TensorStore × Tensor9 :=
  let res := reduce_sum world_size others st i
  (res.1, (res.1.tensors.getD res.2 []).map (fun x => x / (world_size : ℚ)))

end DistMisc

/-! ## ConfigMisc nested dict / Namespace conversion (misc.py lines 52-69)

A Python value reachable from a config is a dict, an `argparse.Namespace`,
or anything else (a leaf), abstracted over the leaf type `α`.  Both dicts
and namespaces keep insertion order, so both are association lists. -/

inductive PyVal (α : Type) where
  | dict (entries : List (String × PyVal α))
  | ns (entries : List (String × PyVal α))
  | atom (a : α)
deriving Repr

namespace ConfigMisc

mutual

/-- `nested_dict_to_nested_namespace`: a dict becomes a `Namespace` whose
attributes are the converted values; anything else is returned unchanged. -/
def nested_dict_to_nested_namespace {α : Type} : PyVal α → PyVal α
  | .dict entries => .ns (ndEntries entries)
  | .ns entries => .ns entries
  | .atom a => .atom a

/-- The per-entry conversion loop of `nested_dict_to_nested_namespace`. -/
def ndEntries {α : Type} : List (String × PyVal α) → List (String × PyVal α)
  | [] => []
  | (k, v) :: rest => (k, nested_dict_to_nested_namespace v) :: ndEntries rest

end

mutual

/-- The body of `nested_namespace_to_nested_dict` on a `Namespace`'s
attribute list: recurse into `Namespace` values, keep all others. -/
def ns_to_dict {α : Type} (entries : List (String × PyVal α)) : PyVal α :=
  .dict (nnEntries entries)

/-- The per-attribute loop of `nested_namespace_to_nested_dict`. -/
def nnEntries {α : Type} : List (String × PyVal α) → List (String × PyVal α)
  | [] => []
  | (k, .ns e) :: rest => (k, ns_to_dict e) :: nnEntries rest
  | (k, .dict e) :: rest => (k, .dict e) :: nnEntries rest
  | (k, .atom a) :: rest => (k, .atom a) :: nnEntries rest

end

/-- `nested_namespace_to_nested_dict`: `vars(namespace)` requires an actual
`Namespace`; on anything else Python raises a `TypeError`. -/
def nested_namespace_to_nested_dict {α : Type} : PyVal α → Except String (PyVal α)
  | .ns entries => .ok (ns_to_dict entries)
  | _ => .error "TypeError: vars() argument must have __dict__ attribute"

end ConfigMisc

/-- A config value that is a dict all the way down: every entry is again
such a dict or a leaf (never a `Namespace`, and leaves are atoms). -/
inductive PureDictTree {α : Type} : PyVal α → Prop where
  | leaf (a : α) : PureDictTree (.atom a)
  | node (entries : List (String × PyVal α))
      (h : ∀ p ∈ entries, PureDictTree p.2) : PureDictTree (.dict entries)

theorem nested_dict_to_nested_namespace_example : ConfigMisc.nested_dict_to_nested_namespace
    (PyVal.dict [("a", PyVal.atom (3 : ℕ)), ("b", PyVal.dict [("c", PyVal.atom 4)])])
    = PyVal.ns [("a", PyVal.atom 3), ("b", PyVal.ns [("c", PyVal.atom 4)])] := by
  rfl

/-- Unfolding the conversion loops over one entry list, given that every
entry round-trips (the inductive hypothesis) and no entry is a namespace. -/
theorem nn_nd_entries {α : Type} (l : List (String × PyVal α))
    (ih : ∀ p ∈ l, ∀ e, p.2 = PyVal.dict e →
      ConfigMisc.nnEntries (ConfigMisc.ndEntries e) = e)
    (ht : ∀ p ∈ l, PureDictTree p.2) :
    ConfigMisc.nnEntries (ConfigMisc.ndEntries l) = l := by
  induction l with
  | nil => simp [ConfigMisc.ndEntries, ConfigMisc.nnEntries]
  | cons p rest irest =>
      obtain ⟨k, v⟩ := p
      have hrest := irest (fun q hq => ih q (List.mem_cons_of_mem _ hq))
        (fun q hq => ht q (List.mem_cons_of_mem _ hq))
      cases v with
      | dict e =>
          have he : ConfigMisc.nnEntries (ConfigMisc.ndEntries e) = e :=
            ih (k, PyVal.dict e) (List.mem_cons_self _ _) e rfl
          simp [ConfigMisc.ndEntries, ConfigMisc.nested_dict_to_nested_namespace,
            ConfigMisc.nnEntries, ConfigMisc.ns_to_dict, he, hrest]
      | ns e =>
          have := ht (k, PyVal.ns e) (List.mem_cons_self _ _)
          cases this
      | atom a =>
          simp [ConfigMisc.ndEntries, ConfigMisc.nested_dict_to_nested_namespace,
            ConfigMisc.nnEntries, hrest]

/-- Every pure dict tree round-trips through the two conversion loops. -/
theorem nn_nd_roundtrip {α : Type} (v : PyVal α) (h : PureDictTree v) :
    ∀ e, v = PyVal.dict e → ConfigMisc.nnEntries (ConfigMisc.ndEntries e) = e := by
  induction h with
  | leaf a => intro e he; cases he
  | node entries h ih =>
      intro e he
      cases he
      exact nn_nd_entries entries (fun p hp e' he' => ih p hp e' he') h

/-- C10: converting a nested configuration dict (no namespaces inside, and
leaf values that are neither dicts nor namespaces) to a nested `Namespace`
and back is the identity on every key and leaf value at every depth. -/
theorem C10_nested_namespace_roundtrip {α : Type} (entries : List (String × PyVal α))
    (h : PureDictTree (PyVal.dict entries)) :
    ConfigMisc.nested_namespace_to_nested_dict
        (ConfigMisc.nested_dict_to_nested_namespace (PyVal.dict entries))
      = Except.ok (PyVal.dict entries) := by
  cases h with
  | node _ ht =>
      simp [ConfigMisc.nested_dict_to_nested_namespace,
        ConfigMisc.nested_namespace_to_nested_dict, ConfigMisc.ns_to_dict]
      exact nn_nd_entries entries
        (fun p hp e he => nn_nd_roundtrip p.2 (ht p hp) e he) ht

/-- C10, instantiated: a concrete two-level config dict round-trips. -/
theorem C10_nested_namespace_roundtrip_witness :
    ConfigMisc.nested_namespace_to_nested_dict
        (ConfigMisc.nested_dict_to_nested_namespace
          (PyVal.dict [("a", PyVal.atom (3 : ℕ)), ("b", PyVal.dict [("c", PyVal.atom 4)])]))
      = Except.ok (PyVal.dict [("a", PyVal.atom 3), ("b", PyVal.dict [("c", PyVal.atom 4)])]) :=
  C10_nested_namespace_roundtrip _ (by
    refine PureDictTree.node _ ?_
    intro p hp
    simp only [List.mem_cons, List.mem_singleton] at hp
    rcases hp with h | h | h
    · subst h; exact PureDictTree.leaf 3
    · subst h
      refine PureDictTree.node _ ?_
      intro q hq
      simp only [List.mem_singleton] at hq
      subst hq; exact PureDictTree.leaf 4
    · cases h)

/-- C7: with `torch.distributed` unavailable or its process group not
initialized, `get_world_size` returns 1, `get_rank` returns 0 and
`is_main_process` returns True; in general `is_main_process` is True
exactly when `get_rank` is 0. -/
theorem C7_rank_queries (d : DistState)
    (h : d.available = false ∨ d.inited = false) :
    DistMisc.get_world_size d = 1 ∧ DistMisc.get_rank d = 0 ∧
      DistMisc.is_main_process d = true ∧
      (∀ d' : DistState, DistMisc.is_main_process d' = true ↔ DistMisc.get_rank d' = 0) := by
  refine ⟨?_, ?_, ?_, ?_⟩
  · rcases h with h | h <;>
      simp [DistMisc.get_world_size, DistMisc.is_dist_avail_and_initialized, h]
  · rcases h with h | h <;>
      simp [DistMisc.get_rank, DistMisc.is_dist_avail_and_initialized, h]
  · rcases h with h | h <;>
      simp [DistMisc.is_main_process, DistMisc.get_rank,
        DistMisc.is_dist_avail_and_initialized, h]
  · intro d'
    simp [DistMisc.is_main_process]

/-- C7, instantiated on a torn-down process group with nonzero stored rank. -/
theorem C7_rank_queries_witness :
    DistMisc.get_world_size ⟨true, false, 8, 3⟩ = 1 ∧
      DistMisc.get_rank ⟨true, false, 8, 3⟩ = 0 ∧
      DistMisc.is_main_process ⟨true, false, 8, 3⟩ = true ∧
      (∀ d' : DistState, DistMisc.is_main_process d' = true ↔ DistMisc.get_rank d' = 0) :=
  C7_rank_queries ⟨true, false, 8, 3⟩ (Or.inr rfl)

/-- `(l ++ [t]).set l.length x` overwrites the appended cell. -/
theorem set_append_singleton {β : Type} (l : List β) (t x : β) :
    (l ++ [t]).set l.length x = l ++ [x] := by
  induction l with
  | nil => rfl
  | cons a rest ih => simp [List.set, ih]

/-- C9: `reduce_mean t` equals `reduce_sum t` cast to float and divided by
the world size; `reduce_sum` returns `t` itself (store untouched) below 2
ranks and otherwise a fresh clone holding the SUM all-reduce of `t` with
the other ranks' tensors; in both functions the caller's tensor cell `i`
is left unmodified. -/
theorem C9_reduce_mean_of_reduce_sum (world_size : ℕ) (others : List Tensor9)
    (st : TensorStore) (i : ℕ) (hi : i < st.tensors.length) :
    (DistMisc.reduce_mean world_size others st i).2
        = ((DistMisc.reduce_sum world_size others st i).1.tensors.getD
            (DistMisc.reduce_sum world_size others st i).2 []).map
            (fun x => x / (world_size : ℚ))
    ∧ (world_size < 2 → DistMisc.reduce_sum world_size others st i = (st, i))
    ∧ (2 ≤ world_size →
        (DistMisc.reduce_sum world_size others st i).2 ≠ i ∧
        (DistMisc.reduce_sum world_size others st i).1.tensors.getD
            (DistMisc.reduce_sum world_size others st i).2 []
          = others.foldl addTensor (st.tensors.getD i []))
    ∧ (DistMisc.reduce_sum world_size others st i).1.tensors.getD i []
        = st.tensors.getD i []
    ∧ (DistMisc.reduce_mean world_size others st i).1.tensors.getD i []
        = st.tensors.getD i [] := by
  by_cases hws : world_size < 2
  · refine ⟨rfl, fun _ => ?_, fun h2 => absurd h2 (by omega), ?_, ?_⟩ <;>
      simp [DistMisc.reduce_sum, DistMisc.reduce_mean, hws]
  · have hset := set_append_singleton st.tensors (st.tensors.getD i [])
      (others.foldl addTensor (st.tensors.getD i []))
    have hsnd : (DistMisc.reduce_sum world_size others st i).2
        = st.tensors.length := by
      simp [DistMisc.reduce_sum, hws]
    refine ⟨rfl, fun h1 => absurd h1 hws, fun _ => ⟨by omega, ?_⟩, ?_, ?_⟩
    · simp [DistMisc.reduce_sum, hws, hset, List.getElem?_append_right]
    · simp [DistMisc.reduce_sum, hws, hset, List.getElem?_append_left hi]
    · simp [DistMisc.reduce_mean, DistMisc.reduce_sum, hws, hset,
        List.getElem?_append_left hi]

/-- C9, instantiated at world size 2 with one peer tensor. -/
theorem C9_reduce_mean_of_reduce_sum_witness :
    (DistMisc.reduce_mean 2 [[(1 : ℚ), 2]] ⟨[[3, 4]]⟩ 0).2
        = ((DistMisc.reduce_sum 2 [[(1 : ℚ), 2]] ⟨[[3, 4]]⟩ 0).1.tensors.getD
            (DistMisc.reduce_sum 2 [[(1 : ℚ), 2]] ⟨[[3, 4]]⟩ 0).2 []).map
            (fun x => x / ((2 : ℕ) : ℚ))
    ∧ ((2 : ℕ) < 2 → DistMisc.reduce_sum 2 [[(1 : ℚ), 2]] ⟨[[3, 4]]⟩ 0 = (⟨[[3, 4]]⟩, 0))
    ∧ (2 ≤ (2 : ℕ) →
        (DistMisc.reduce_sum 2 [[(1 : ℚ), 2]] ⟨[[3, 4]]⟩ 0).2 ≠ 0 ∧
        (DistMisc.reduce_sum 2 [[(1 : ℚ), 2]] ⟨[[3, 4]]⟩ 0).1.tensors.getD
            (DistMisc.reduce_sum 2 [[(1 : ℚ), 2]] ⟨[[3, 4]]⟩ 0).2 []
          = [[(1 : ℚ), 2]].foldl addTensor ((⟨[[3, 4]]⟩ : TensorStore).tensors.getD 0 []))
    ∧ (DistMisc.reduce_sum 2 [[(1 : ℚ), 2]] ⟨[[3, 4]]⟩ 0).1.tensors.getD 0 []
        = (⟨[[3, 4]]⟩ : TensorStore).tensors.getD 0 []
    ∧ (DistMisc.reduce_mean 2 [[(1 : ℚ), 2]] ⟨[[3, 4]]⟩ 0).1.tensors.getD 0 []
        = (⟨[[3, 4]]⟩ : TensorStore).tensors.getD 0 [] :=
  C9_reduce_mean_of_reduce_sum 2 [[(1 : ℚ), 2]] ⟨[[3, 4]]⟩ 0 (by decide)

/-! ## InfiniteDataLoaderX / _RepeatSampler (data_module_base.py lines 130-155)

The wrapped batch sampler is modelled by its per-pass outputs: `passes k`
is what one full iteration of the inner sampler yields on its `k`-th
restart (a random sampler may reorder between passes), every pass having
the sampler's fixed length `plen`.  `_RepeatSampler.__iter__` is the
infinite concatenation of the passes; `repeatYield s n` is its `n`-th
yield (`none` when the inner sampler is empty: the wrapper then loops
forever producing nothing).  The loader keeps ONE iterator over that
stream for its whole lifetime; `pos` counts the batches drawn so far. -/

structure RepeatSamplerM (α : Type) where
  passes : ℕ → List α
  plen : ℕ
  passes_len : ∀ k, (passes k).length = plen

/-- The `n`-th element `_RepeatSampler.__iter__` yields. -/
def repeatYield {α : Type} (s : RepeatSamplerM α) (n : ℕ) : Option α :=
  if h : 0 < s.plen then
    some ((s.passes (n / s.plen)).get ⟨n % s.plen, by
      rw [s.passes_len]; exact Nat.mod_lt _ h⟩)
  else none

/-- `InfiniteDataLoaderX.__len__`: the length of the original (pre-repeat)
batch sampler, `len(self.batch_sampler.sampler)`. -/
def loaderLen {α : Type} (s : RepeatSamplerM α) : ℕ := s.plen

/-- One call to `InfiniteDataLoaderX.__iter__` with the persistent iterator
standing at `pos`: `for _ in range(len(self)): yield next(self.iterator)`. -/
def loaderEpoch {α : Type} (s : RepeatSamplerM α) (pos : ℕ) : List (Option α) :=
  (List.range (loaderLen s)).map (fun i => repeatYield s (pos + i))

theorem loaderEpoch_example :
    loaderEpoch ⟨fun _ => [10, 20, 30], 3, fun _ => rfl⟩ 2
      = [some 30, some 10, some 20] := by
  simp [loaderEpoch, loaderLen, repeatYield, List.range_succ]

/-- C4: `len()` of an `InfiniteDataLoaderX` built over a batch sampler is
the length of the original pre-repeat batch sampler; every `__iter__` call
yields exactly `len()` batches; the wrapped `_RepeatSampler` never
terminates, re-yielding the whole inner sampler on every pass forever; and
consecutive epochs read consecutive positions of the one persistent
iterator instead of re-creating it. -/
theorem C4_infinite_dataloader {α : Type} (s : RepeatSamplerM α) (pos k : ℕ) :
    loaderLen s = (s.passes 0).length
    ∧ (loaderEpoch s pos).length = loaderLen s
    ∧ (0 < s.plen → ∀ n, (repeatYield s n).isSome = true)
    ∧ (0 < s.plen → ∀ i, i < s.plen →
        repeatYield s (k * s.plen + i) = (s.passes k)[i]?)
    ∧ loaderEpoch s pos ++ loaderEpoch s (pos + loaderLen s)
        = (List.range (loaderLen s + loaderLen s)).map
            (fun i => repeatYield s (pos + i)) := by
  refine ⟨(s.passes_len 0).symm, by simp [loaderEpoch], fun h n => ?_,
    fun h i hi => ?_, ?_⟩
  · simp [repeatYield, h]
  · have hdiv : (k * s.plen + i) / s.plen = k := by
      rw [Nat.mul_comm, Nat.mul_add_div h, Nat.div_eq_of_lt hi, Nat.add_zero]
    have hmod : (k * s.plen + i) % s.plen = i := by
      rw [Nat.mul_comm, Nat.mul_add_mod, Nat.mod_eq_of_lt hi]
    simp only [repeatYield, dif_pos h]
    rw [List.getElem?_eq_getElem (by rw [s.passes_len]; omega)]
    simp [List.get_eq_getElem, hdiv, hmod]
  · unfold loaderEpoch
    rw [List.range_add, List.map_append, List.map_map]
    congr 1
    apply List.map_congr_left
    intro i _
    simp [Function.comp, Nat.add_assoc]

/-! ## DistMisc.reduce_dict (misc.py lines 332-349)

A metric dict maps string keys to tensors.  Each rank holds one dict;
`dicts` lists them all, rank `r` runs the function.  The code stacks its
own values in sorted-key order, SUM-all-reduces the stack across ranks,
optionally divides by the world size in place, and rebuilds a dict by
zipping the sorted names with the reduced rows. -/

abbrev RDict := List (String × Tensor9)

namespace DistMisc

/-- `input_dict[k]` (total: every use looks up a key of the dict itself). -/
def lookupD (d : RDict) (k : String) : Tensor9 := (d.lookup k).getD []

/-- `sorted(input_dict.keys())`. -/
def sortedKeys (d : RDict) : List String :=
  (d.map Prod.fst).mergeSort (fun a b => decide (a ≤ b))

/-- `torch.stack(values, dim=0)` over the sorted keys of one rank's dict. -/
def stackOf (d : RDict) : List Tensor9 := (sortedKeys d).map (lookupD d)

/-- Row-wise addition of two stacked tensors. -/
def addStack (a b : List Tensor9) : List Tensor9 := List.zipWith addTensor a b

/-- `dist.all_reduce` (SUM) over every rank's stacked values. -/
def allReduceSum : List (List Tensor9) → List Tensor9
  | [] => []
  | x :: rest => rest.foldl addStack x

/-- `DistMisc.reduce_dict` as rank `r` computes it. -/
def reduce_dict (world_size : ℕ) (dicts : List RDict) (r : ℕ)
    (average : Bool) : RDict :=
  let input := dicts.getD r []
  if world_size < 2 then input
  else
    let names := sortedKeys input
    let values := allReduceSum (dicts.map stackOf)
    let values := if average then
        values.map (fun t => t.map (fun x => x / (world_size : ℚ)))
      else values
    names.zip values

/-- The sum, rank by rank in all-reduce order, of key `k`'s tensor. -/
def sumAcross (dicts : List RDict) (k : String) : Tensor9 :=
  match dicts with
  | [] => []
  | d :: rest => rest.foldl (fun acc d' => addTensor acc (lookupD d' k)) (lookupD d k)

end DistMisc

theorem zipWith_map_same {β γ : Type} (f : γ → γ → γ) (g h : β → γ) (l : List β) :
    List.zipWith f (l.map g) (l.map h) = l.map (fun x => f (g x) (h x)) := by
  induction l with
  | nil => rfl
  | cons a rest ih => simp [ih]

theorem foldl_addStack_map (names : List String) (g : RDict → String → Tensor9)
    (acc : String → Tensor9) (rest : List RDict) :
    rest.foldl (fun a d => DistMisc.addStack a (names.map (g d))) (names.map acc)
      = names.map (fun k => rest.foldl (fun a d => addTensor a (g d k)) (acc k)) := by
  induction rest generalizing acc with
  | nil => rfl
  | cons d ds ih =>
      simp only [List.foldl_cons]
      rw [show DistMisc.addStack (names.map acc) (names.map (g d))
            = names.map (fun k => addTensor (acc k) (g d k)) from
          zipWith_map_same _ _ _ _]
      exact ih (fun k => addTensor (acc k) (g d k))

theorem lookup_zip_map (f : String → Tensor9) (k : String) :
    ∀ names : List String, k ∈ names →
      (names.zip (names.map f)).lookup k = some (f k) := by
  intro names
  induction names with
  | nil => intro h; cases h
  | cons a rest ih =>
      intro hk
      by_cases hak : k = a
      · subst hak
        simp
      · have hmem : k ∈ rest := by
          rcases List.mem_cons.mp hk with h | h
          · exact absurd h hak
          · exact h
        have hbeq : (k == a) = false := by
          simpa using hak
        simp only [List.zip_cons_cons, List.map_cons, List.lookup, hbeq]
        exact ih hmem

theorem reduce_dict_values (d : RDict) (rest : List RDict) (names : List String)
    (hd : DistMisc.sortedKeys d = names)
    (hall : ∀ d' ∈ rest, DistMisc.sortedKeys d' = names) :
    DistMisc.allReduceSum ((d :: rest).map DistMisc.stackOf)
      = names.map (DistMisc.sumAcross (d :: rest)) := by
  have hmap : rest.map DistMisc.stackOf
      = rest.map (fun d' => names.map (DistMisc.lookupD d')) := by
    apply List.map_congr_left
    intro d' hd'
    simp [DistMisc.stackOf, hall d' hd']
  simp only [List.map_cons, DistMisc.allReduceSum, hmap, DistMisc.stackOf, hd,
    List.foldl_map]
  rw [foldl_addStack_map names (fun d' k => DistMisc.lookupD d' k)
    (DistMisc.lookupD d) rest]
  apply List.map_congr_left
  intro k _
  simp [DistMisc.sumAcross]

theorem addTensor_getD (a b : Tensor9) (m : ℕ) (ha : m < a.length)
    (hb : m < b.length) :
    (addTensor a b).getD m 0 = a.getD m 0 + b.getD m 0 := by
  simp [addTensor, List.getD_eq_getElem?_getD, List.getElem?_zipWith,
    List.getElem?_eq_getElem ha, List.getElem?_eq_getElem hb]

theorem foldl_addTensor_getD (m : ℕ) :
    ∀ (rest : List Tensor9) (init : Tensor9), m < init.length →
      (∀ t ∈ rest, t.length = init.length) →
      (rest.foldl addTensor init).getD m 0
        = init.getD m 0 + (rest.map (fun t => t.getD m 0)).sum := by
  intro rest
  induction rest with
  | nil => intro init hm _; simp
  | cons t ts ih =>
      intro init hm hlen
      simp only [List.foldl_cons, List.map_cons, List.sum_cons]
      have ht : t.length = init.length := hlen t (List.mem_cons_self _ _)
      have hlen' : (addTensor init t).length = init.length := by
        simp [addTensor, ht]
      rw [ih (addTensor init t) (by rw [hlen']; exact hm)
          (fun u hu => by rw [hlen']; exact hlen u (List.mem_cons_of_mem _ hu))]
      rw [addTensor_getD init t m hm (by rw [ht]; exact hm)]
      ring

/-- C2: below world size 2, `reduce_dict` returns its input dict unchanged;
at world size 2 or more it returns a new dict over the same key set (the
sorted keys of the input) in which every key holds the element-wise sum of
that key's tensor across all ranks, divided by the world size exactly when
`average` is true.  The last conjunct settles the element-wise reading of
the rank-by-rank sum. -/
theorem C2_reduce_dict (world_size : ℕ) (dicts : List RDict) (r : ℕ)
    (average : Bool) :
    (world_size < 2 →
      DistMisc.reduce_dict world_size dicts r average = dicts.getD r [])
    ∧ (2 ≤ world_size →
       (∀ d ∈ dicts, DistMisc.sortedKeys d = DistMisc.sortedKeys (dicts.getD r [])) →
       dicts ≠ [] →
       ((∀ k, k ∈ (DistMisc.reduce_dict world_size dicts r average).map Prod.fst ↔
              k ∈ (dicts.getD r []).map Prod.fst)
        ∧ (∀ k, k ∈ (dicts.getD r []).map Prod.fst →
            (DistMisc.reduce_dict world_size dicts r average).lookup k
              = some (if average then
                  (DistMisc.sumAcross dicts k).map (fun x => x / (world_size : ℚ))
                else DistMisc.sumAcross dicts k))))
    ∧ (∀ k m, dicts ≠ [] →
        (∀ d ∈ dicts, (DistMisc.lookupD d k).length
            = (DistMisc.lookupD (dicts.getD r []) k).length) →
        m < (DistMisc.lookupD (dicts.getD r []) k).length →
        (DistMisc.sumAcross dicts k).getD m 0
          = (dicts.map (fun d => (DistMisc.lookupD d k).getD m 0)).sum) := by
  refine ⟨fun h => by simp [DistMisc.reduce_dict, h], fun h2 hkeys hne => ?_,
    fun k m hne hsh hm => ?_⟩
  · obtain ⟨d, rest, rfl⟩ := List.exists_cons_of_ne_nil hne
    set input := (d :: rest).getD r [] with hinput
    have hvals : DistMisc.allReduceSum ((d :: rest).map DistMisc.stackOf)
        = (DistMisc.sortedKeys input).map (DistMisc.sumAcross (d :: rest)) :=
      reduce_dict_values d rest _ (hkeys d (List.mem_cons_self _ _))
        (fun d' hd' => hkeys d' (List.mem_cons_of_mem _ hd'))
    have hlt : ¬ world_size < 2 := by omega
    have hred : DistMisc.reduce_dict world_size (d :: rest) r average
        = (DistMisc.sortedKeys input).zip
            ((DistMisc.sortedKeys input).map (fun k =>
              if average then
                (DistMisc.sumAcross (d :: rest) k).map (fun x => x / (world_size : ℚ))
              else DistMisc.sumAcross (d :: rest) k)) := by
      simp only [DistMisc.reduce_dict, hlt, if_false, ← hinput, hvals]
      cases average
      · simp [List.map_map]
      · simp only [List.map_map, if_true]
        rfl
    constructor
    · intro k
      rw [hred, List.map_fst_zip _ _ (by simp)]
      exact (List.mergeSort_perm (input.map Prod.fst) _).mem_iff
    · intro k hk
      rw [hred, lookup_zip_map]
      rw [DistMisc.sortedKeys, (List.mergeSort_perm (input.map Prod.fst) _).mem_iff]
      exact hk
  · obtain ⟨d, rest, rfl⟩ := List.exists_cons_of_ne_nil hne
    have hd : (DistMisc.lookupD d k).length
        = (DistMisc.lookupD ((d :: rest).getD r []) k).length :=
      hsh d (List.mem_cons_self _ _)
    simp only [DistMisc.sumAcross, List.map_cons, List.sum_cons]
    rw [← List.foldl_map (fun d' => DistMisc.lookupD d' k) addTensor rest
      (DistMisc.lookupD d k)]
    rw [foldl_addTensor_getD m (rest.map (fun d' => DistMisc.lookupD d' k))
      (DistMisc.lookupD d k) (by omega)
      (fun t ht => by
        obtain ⟨d', hd', rfl⟩ := List.mem_map.mp ht
        rw [hsh d' (List.mem_cons_of_mem _ hd'), hd])]
    simp only [List.map_map, Function.comp_def]

/-! ## DistMisc.all_gather (misc.py lines 288-330)

Pickle is the framework's: it appears as an encode function `enc` to byte
strings (lists of naturals) and a decode `dec`, with its round-trip
contract a hypothesis of the theorem.  `pads` holds the uninitialized
bytes `torch.empty` supplies to each rank for padding, arbitrary garbage.
With one rank the function returns `[data]` before any serialization. -/

namespace DistMisc

/-- `size_list`: every rank's transmitted byte count. -/
def gatherSizes {α : Type} (enc : α → List ℕ) (datas : List α) : List ℕ :=
  datas.map (fun d => (enc d).length)

/-- Every rank's buffer as gathered: padded up to `max_size` unless it
already has that size (`if local_size != max_size`). -/
def gatherPadded {α : Type} (enc : α → List ℕ) (datas : List α)
    (pads : List (List ℕ)) : List (List ℕ) :=
  List.zipWith (fun d p =>
    let buf := enc d
    if buf.length ≠ ((gatherSizes enc datas).foldr max 0) then buf ++ p else buf)
    datas pads

/-- `DistMisc.all_gather`: early return `[data]` at world size 1; otherwise
gather the padded buffers, truncate each to its rank's transmitted size and
unpickle. -/
def all_gather {α : Type} (enc : α → List ℕ) (dec : List ℕ → α)
    (pads : List (List ℕ)) (world_size : ℕ) (data : α) (datas : List α) :
    List α :=
  if world_size = 1 then [data]
  else
    ((gatherSizes enc datas).zip (gatherPadded enc datas pads)).map
      (fun p => dec (p.2.take p.1))

end DistMisc

/-- Truncating one padded buffer at its transmitted size gives the bytes back. -/
theorem take_padded {α : Type} (enc : α → List ℕ) (M : ℕ) (d : α) (p : List ℕ) :
    (if (enc d).length ≠ M then enc d ++ p else enc d).take (enc d).length
      = enc d := by
  by_cases h : (enc d).length ≠ M
  · rw [if_pos h, List.take_left]
  · rw [if_neg h, List.take_length]

/-- C5: `all_gather` returns one entry per rank; with one rank it is
`[data]`, the input untouched and never serialized; with more ranks the
entry at index `i` is rank `i`'s object: truncating each gathered padded
buffer to that rank's transmitted size recovers exactly the pickled bytes,
so unpickling round-trips every rank's input. -/
theorem C5_all_gather {α : Type} (enc : α → List ℕ) (dec : List ℕ → α)
    (pads : List (List ℕ)) (world_size : ℕ) (data : α) (datas : List α)
    (hdec : ∀ x, dec (enc x) = x) (hlen : pads.length = datas.length) :
    (world_size = 1 → DistMisc.all_gather enc dec pads world_size data datas = [data])
    ∧ (∀ (i : ℕ) (t : List ℕ) (n : ℕ),
        (DistMisc.gatherPadded enc datas pads)[i]? = some t →
        (DistMisc.gatherSizes enc datas)[i]? = some n →
        some (t.take n) = (datas.map enc)[i]?)
    ∧ (world_size ≠ 1 →
        DistMisc.all_gather enc dec pads world_size data datas = datas
        ∧ (world_size = datas.length →
            (DistMisc.all_gather enc dec pads world_size data datas).length
              = world_size)) := by
  have hzip : ∀ (l : List α) (q : List (List ℕ)) (M : ℕ), q.length = l.length →
      ((l.map (fun d => (enc d).length)).zip
        (List.zipWith (fun d p =>
          let buf := enc d
          if buf.length ≠ M then buf ++ p else buf) l q)).map
        (fun p => dec (p.2.take p.1)) = l := by
    intro l
    induction l with
    | nil => intro q M _; rfl
    | cons d ds ih =>
        intro q M hq
        cases q with
        | nil => simp at hq
        | cons p ps =>
            simp only [List.map_cons, List.zipWith_cons_cons, List.zip_cons_cons]
            have hhead : dec ((if (enc d).length ≠ M then enc d ++ p
                else enc d).take (enc d).length) = d := by
              rw [take_padded enc M d p, hdec]
            simp only [hhead]
            congr 1
            exact ih ps M (by simpa using hq)
  have htrunc : ∀ (l : List α) (q : List (List ℕ)) (M : ℕ),
      ∀ (i : ℕ) (t : List ℕ) (n : ℕ),
      (List.zipWith (fun d p =>
          let buf := enc d
          if buf.length ≠ M then buf ++ p else buf) l q)[i]? = some t →
      (l.map (fun d => (enc d).length))[i]? = some n →
      some (t.take n) = (l.map enc)[i]? := by
    intro l
    induction l with
    | nil => intro q M i t n ht _; simp at ht
    | cons d ds ih =>
        intro q M i t n ht hn
        cases q with
        | nil => simp at ht
        | cons p ps =>
            cases i with
            | zero =>
                simp only [List.zipWith_cons_cons, List.map_cons,
                  List.getElem?_cons_zero, Option.some.injEq] at ht hn ⊢
                subst ht; subst hn
                exact (take_padded enc M d p)
            | succ j =>
                simp only [List.zipWith_cons_cons, List.map_cons,
                  List.getElem?_cons_succ] at ht hn ⊢
                exact ih ps M j t n ht hn
  refine ⟨fun h1 => by simp [DistMisc.all_gather, h1], ?_, fun hne => ?_⟩
  · intro i t n ht hn
    exact htrunc datas pads _ i t n ht hn
  · have hmain : DistMisc.all_gather enc dec pads world_size data datas = datas := by
      simp only [DistMisc.all_gather, hne, if_false]
      exact hzip datas pads _ hlen
    exact ⟨hmain, fun hws => by rw [hmain, hws]⟩

/-- C5, instantiated: two ranks exchanging one-byte payloads. -/
theorem C5_all_gather_witness :
    ((2 : ℕ) = 1 → DistMisc.all_gather (fun n : ℕ => [n]) (fun l => l.getD 0 0)
        [[], [9]] 2 5 [5, 7] = [5])
    ∧ (∀ (i : ℕ) (t : List ℕ) (n : ℕ),
        (DistMisc.gatherPadded (fun n : ℕ => [n]) [5, 7] [[], [9]])[i]? = some t →
        (DistMisc.gatherSizes (fun n : ℕ => [n]) [5, 7])[i]? = some n →
        some (t.take n) = ([5, 7].map (fun n : ℕ => [n]))[i]?)
    ∧ ((2 : ℕ) ≠ 1 →
        DistMisc.all_gather (fun n : ℕ => [n]) (fun l => l.getD 0 0)
            [[], [9]] 2 5 [5, 7] = [5, 7]
        ∧ ((2 : ℕ) = [5, 7].length →
            (DistMisc.all_gather (fun n : ℕ => [n]) (fun l => l.getD 0 0)
              [[], [9]] 2 5 [5, 7]).length = 2)) :=
  C5_all_gather (fun n : ℕ => [n]) (fun l => l.getD 0 0) [[], [9]] 2 5 [5, 7]
    (fun _ => rfl) rfl

/-! ## DistMisc.init_distributed_mode (misc.py lines 395-424)

The bits of `os.environ` and of `cfg` the function touches.  Environment
values are already numbers (`int(...)` parsing is not modelled);
`SLURM_PTY_PORT` matters only by presence.  `device_count` is
`torch.cuda.device_count()`.  The returned flag records whether
`dist.init_process_group` was called. -/

structure OsEnv where
  RANK : Option ℕ
  WORLD_SIZE : Option ℕ
  LOCAL_RANK : Option ℕ
  SLURM_PROCID : Option ℕ
  SLURM_PTY_PORT : Bool
deriving Repr, DecidableEq

structure TrainCfg where
  distributed : Option Bool
  rank : Option ℕ
  world_size : Option ℕ
  gpu : Option ℕ
  dist_backend : Option String
  dist_url : Option String
  batch_size_per_rank : ℕ
  batch_size_total : Option ℕ
deriving Repr, DecidableEq

namespace DistMisc

/-- Lines 410-423: mark distributed, pick the backend, compute the total
batch size from `cfg.env.world_size` (an `AttributeError` if absent), and
initialize the process group at `cfg.env.dist_url` (same caveat). -/
def distributedTail (cfg : TrainCfg) : Except String (TrainCfg × Bool) :=
  match cfg.world_size with
  | none => .error "AttributeError: world_size"
  | some w =>
    match cfg.dist_url with
    | none => .error "AttributeError: dist_url"
    | some _ => .ok ({ cfg with
        distributed := some true,
        dist_backend := some "nccl",
        batch_size_total := some (cfg.batch_size_per_rank * w) }, true)

/-- `DistMisc.init_distributed_mode`. -/
def init_distributed_mode (env : OsEnv) (device_count : ℕ) (cfg : TrainCfg) :
    Except String (TrainCfg × Bool) :=
  match env.RANK, env.WORLD_SIZE with
  | some r, some w =>
      (match env.LOCAL_RANK with
       | none => .error "KeyError: LOCAL_RANK"
       | some lr => distributedTail
          { cfg with rank := some r, world_size := some w, gpu := some lr })
  | _, _ =>
      match env.SLURM_PROCID, env.SLURM_PTY_PORT with
      | some pid, false =>
          if device_count = 0 then .error "ZeroDivisionError: integer modulo by zero"
          else distributedTail
            { cfg with rank := some pid, gpu := some (pid % device_count) }
      | _, _ =>
          .ok ({ cfg with
                   distributed := some false,
                   batch_size_total := some cfg.batch_size_per_rank }, false)

end DistMisc

/-- Neither both RANK and WORLD_SIZE nor a usable SLURM_PROCID (present,
with no SLURM_PTY_PORT) are in the environment. -/
def noDistEnv (env : OsEnv) : Prop :=
  ¬(env.RANK.isSome = true ∧ env.WORLD_SIZE.isSome = true)
    ∧ ¬(env.SLURM_PROCID.isSome = true ∧ env.SLURM_PTY_PORT = false)

instance (env : OsEnv) : Decidable (noDistEnv env) := by
  unfold noDistEnv; infer_instance

theorem distributedTail_ok (c c' : TrainCfg) (flag : Bool)
    (h : DistMisc.distributedTail c = .ok (c', flag)) :
    c'.distributed = some true ∧ flag = true
      ∧ ∃ w, c'.world_size = some w
          ∧ c'.batch_size_total = some (c.batch_size_per_rank * w) := by
  unfold DistMisc.distributedTail at h
  split at h
  · cases h
  · split at h
    · cases h
    · cases h
      exact ⟨rfl, rfl, _, by assumption, rfl⟩

/-- C6 (counterexample to the claim as frozen): with RANK and WORLD_SIZE
both set but LOCAL_RANK absent, the function raises a `KeyError` instead of
setting `cfg.env.distributed` to True. -/
theorem C6_missing_local_rank :
    DistMisc.init_distributed_mode ⟨some 0, some 2, none, none, false⟩ 1
        ⟨none, none, none, none, none, some "env://", 4, none⟩
      = .error "KeyError: LOCAL_RANK" := by
  rfl

/-- C6 (amended): with no usable distributed environment the function sets
`cfg.env.distributed` to False and `batch_size_total` to
`batch_size_per_rank`, returning without initializing a process group;
otherwise, whenever it returns instead of raising, it has set
`cfg.env.distributed` to True, `batch_size_total` to
`batch_size_per_rank * cfg.env.world_size`, and initialized the group. -/
theorem C6_init_distributed_mode (env : OsEnv) (device_count : ℕ)
    (cfg : TrainCfg) :
    (noDistEnv env →
      DistMisc.init_distributed_mode env device_count cfg
        = .ok ({ cfg with
                   distributed := some false,
                   batch_size_total := some cfg.batch_size_per_rank }, false))
    ∧ (¬noDistEnv env → ∀ cfg' flag,
        DistMisc.init_distributed_mode env device_count cfg = .ok (cfg', flag) →
        cfg'.distributed = some true ∧ flag = true
          ∧ ∃ w, cfg'.world_size = some w
              ∧ cfg'.batch_size_total = some (cfg.batch_size_per_rank * w)) := by
  constructor
  · intro hno
    obtain ⟨h1, h2⟩ := hno
    unfold DistMisc.init_distributed_mode
    split
    · rename_i r w hr hw
      exact absurd ⟨by simp [hr], by simp [hw]⟩ h1
    · split
      · rename_i pid hs hp
        exact absurd ⟨by simp [hs], hp⟩ h2
      · rfl
  · intro hnd cfg' flag hok
    unfold DistMisc.init_distributed_mode at hok
    split at hok
    · split at hok
      · cases hok
      · have h' := distributedTail_ok _ _ _ hok
        exact h'
    · split at hok
      · split at hok
        · cases hok
        · have h' := distributedTail_ok _ _ _ hok
          exact h'
      · cases hok
        rename_i hmain _ _ hslurm
        refine absurd ⟨fun h => ?_, fun h => ?_⟩ hnd
        · obtain ⟨r, hr⟩ := Option.isSome_iff_exists.mp h.1
          obtain ⟨w, hw⟩ := Option.isSome_iff_exists.mp h.2
          exact hmain r w hr hw
        · obtain ⟨pid, hp⟩ := Option.isSome_iff_exists.mp h.1
          exact hslurm pid hp h.2

/-! ## Checkpoint lifecycle (misc.py lines 518-538 and 585-625)

The work dir is a list of (file name, checkpoint) pairs; file names are
character lists so that the two `glob` patterns are real prefix/suffix
matches.  A checkpoint (`save_files`) is the Python dict that
`torch.save` serializes: string keys mapping to opaque state dicts
(natural-number identifiers), metric dicts, or an epoch number.
`choose_best` stands for `metric_criterion.choose_best`. -/

abbrev FName := List Char
abbrev Metrics := List (String × ℤ)

inductive CkptVal where
  | sd (n : ℕ)
  | met (m : Metrics)
  | ep (e : ℕ)
deriving Repr, DecidableEq

abbrev Ckpt := List (String × CkptVal)
abbrev WorkDir := List (FName × Ckpt)

def bestGlobPrefix : FName := "checkpoint_best_epoch_".data
def lastGlobPrefix : FName := "checkpoint_last_epoch_".data
def pthSuffix : FName := ".pth".data

def bestName (e : ℕ) : FName := bestGlobPrefix ++ (toString e).data ++ pthSuffix
def lastName (e : ℕ) : FName := lastGlobPrefix ++ (toString e).data ++ pthSuffix

/-- `glob('checkpoint_best_epoch_*.pth')` membership. -/
def isBestCkpt (s : FName) : Bool :=
  bestGlobPrefix.isPrefixOf s && pthSuffix.isSuffixOf s

/-- `glob('checkpoint_last_epoch_*.pth')` membership. -/
def isLastCkpt (s : FName) : Bool :=
  lastGlobPrefix.isPrefixOf s && pthSuffix.isSuffixOf s

structure TrainerStatus where
  model_sd : ℕ
  optimizer_sd : ℕ
  lr_scheduler_sd : ℕ
  scaler_sd : ℕ
  start_epoch : ℕ
  epoch : ℕ
  best_metrics : Metrics
  metrics : Metrics
  train_iters : ℕ
  train_loader_len : ℕ
deriving Repr, DecidableEq

namespace TrainerMisc

/-- The `save_files` dict as first built (lines 594-598). -/
def save_files_base (ts : TrainerStatus) (bm : Metrics) (e : ℕ) : Ckpt :=
  [("model", .sd ts.model_sd), ("best_metrics", .met bm), ("epoch", .ep e)]

/-- `save_files` after the `.update(...)` calls of the last-checkpoint
branch (lines 610-618); note the saved key is `last_metric`. -/
def save_files_last (ts : TrainerStatus) (bm : Metrics) (e : ℕ)
    (amp device : Bool) : Ckpt :=
  save_files_base ts bm e
    ++ [("optimizer", .sd ts.optimizer_sd),
        ("lr_scheduler", .sd ts.lr_scheduler_sd),
        ("last_metric", .met ts.metrics)]
    ++ (if amp && device then [("scaler", .sd ts.scaler_sd)] else [])

/-- `torch.save` onto the one matching path then `os.rename`: that entry
gets the new content and the new name, in place. -/
def overwriteRename (fs : WorkDir) (oldName newName : FName) (content : Ckpt) :
    WorkDir :=
  fs.map (fun p => if p.1 = oldName then (newName, content) else p)

/-- Lines 600-607: when the metrics improved, glob the best checkpoints,
assert at most one, and overwrite-and-rename it (or write a fresh one). -/
def save_best_step (e : ℕ) (base : Ckpt) (save_flag : Bool) (fs : WorkDir) :
    Except String WorkDir :=
  if save_flag then
    match fs.filter (fun p => isBestCkpt p.1) with
    | [] => .ok (fs ++ [(bestName e, base)])
    | [b] => .ok (overwriteRename fs b.1 (bestName e) base)
    | _ => .error "AssertionError: more than one best checkpoint"
  else .ok fs

/-- Lines 609-625: on a save-interval epoch, glob the last checkpoints,
assert at most one, and overwrite-and-rename it (or write a fresh one). -/
def save_last_step (e : ℕ) (lastC : Ckpt) (save_interval : ℕ) (fs1 : WorkDir) :
    Except String WorkDir :=
  if (e + 1) % save_interval = 0 then
    match fs1.filter (fun p => isLastCkpt p.1) with
    | [] => .ok (fs1 ++ [(lastName e, lastC)])
    | [b] => .ok (overwriteRename fs1 b.1 (lastName e) lastC)
    | _ => .error "AssertionError: more than one last checkpoint"
  else .ok fs1

/-- `TrainerMisc.save_checkpoint` on one process (`is_main` tells whether
it is the main one; elsewhere the body is skipped). -/
def save_checkpoint (is_main : Bool)
    (choose_best : Metrics → Metrics → Metrics × Bool)
    (save_interval : ℕ) (amp device : Bool) (ts : TrainerStatus)
    (fs : WorkDir) : Except String (TrainerStatus × WorkDir) :=
  if !is_main then .ok (ts, fs) else
  let e := ts.epoch
  let bm := (choose_best ts.metrics ts.best_metrics).1
  let save_flag := (choose_best ts.metrics ts.best_metrics).2
  let ts' := { ts with best_metrics := bm }
  let base := save_files_base ts bm e
  do
    let fs1 ← save_best_step e base save_flag fs
    let fs2 ← save_last_step e (save_files_last ts bm e amp device)
      save_interval fs1
    Except.ok (ts', fs2)

/-- `checkpoint['k']` expected to hold a state dict. -/
def expectSd (v : Option CkptVal) : Except String ℕ :=
  match v with
  | some (.sd n) => .ok n
  | some _ => .error "TypeError"
  | none => .error "KeyError"

/-- `checkpoint['epoch']`. -/
def expectEp (v : Option CkptVal) : Except String ℕ :=
  match v with
  | some (.ep e) => .ok e
  | some _ => .error "TypeError"
  | none => .error "KeyError"

/-- `checkpoint.get(k, {})` for a metrics value. -/
def getMetD (v : Option CkptVal) : Metrics :=
  match v with
  | some (.met m) => m
  | _ => []

/-- `TrainerMisc.resume_training` (lines 518-538): glob the single last
checkpoint of the work dir, assert there is exactly one, and restore the
trainer status from it. -/
def resume_training (resume : Bool) (amp : Bool) (fs : WorkDir)
    (ts : TrainerStatus) : Except String TrainerStatus :=
  if !resume then .ok ts else
  match fs.filter (fun p => isLastCkpt p.1) with
  | [ck] => do
      let c := ck.2
      let modelSd ← expectSd (c.lookup "model")
      let optSd ← expectSd (c.lookup "optimizer")
      let lrSd ← expectSd (c.lookup "lr_scheduler")
      let scalerSd ← if amp then expectSd (c.lookup "scaler") else pure ts.scaler_sd
      let ep ← expectEp (c.lookup "epoch")
      Except.ok { ts with
        model_sd := modelSd,
        optimizer_sd := optSd,
        lr_scheduler_sd := lrSd,
        scaler_sd := scalerSd,
        start_epoch := ep + 1,
        best_metrics := getMetD (c.lookup "best_metrics"),
        metrics := getMetD (c.lookup "last_metrics"),
        train_iters := ep * ts.train_loader_len }
  | l => .error ("AssertionError: found " ++ toString l.length ++ " checkpoints")

end TrainerMisc

/-- A first finished epoch whose validation metrics improved. -/
def resumeTs0 : TrainerStatus :=
  { model_sd := 10, optimizer_sd := 11, lr_scheduler_sd := 12, scaler_sd := 13,
    start_epoch := 1, epoch := 1, best_metrics := [], metrics := [("loss", 5)],
    train_iters := 7, train_loader_len := 7 }

/-- The fresh trainer status a resumed run starts from. -/
def resumeFresh : TrainerStatus :=
  { model_sd := 0, optimizer_sd := 0, lr_scheduler_sd := 0, scaler_sd := 0,
    start_epoch := 1, epoch := 0, best_metrics := [], metrics := [],
    train_iters := 0, train_loader_len := 7 }

/-- C1 (the key-name bug, evaluated): after `save_checkpoint` writes the
single last checkpoint of the work dir — holding the validation metrics
under the key `last_metric` — `resume_training` restores the model,
optimizer and scheduler state dicts, `start_epoch = epoch + 1`, the best
metrics and `train_iters = epoch * len(train_loader)`, but reads the key
`last_metrics`, which is absent, so the restored metrics are `{}` instead
of the saved `{'loss': 5}`. -/
theorem C1_resume_training_metrics_bug :
    (do
      let r ← TrainerMisc.save_checkpoint true (fun m _ => (m, true)) 2 false false
        resumeTs0 []
      TrainerMisc.resume_training true false r.2 resumeFresh :
      Except String TrainerStatus)
      = Except.ok { resumeFresh with
          model_sd := 10, optimizer_sd := 11, lr_scheduler_sd := 12,
          start_epoch := 2, best_metrics := [("loss", 5)], metrics := [],
          train_iters := 7 }
    ∧ (TrainerMisc.save_files_last resumeTs0 [("loss", 5)] 1 false false).lookup
        "last_metric" = some (.met [("loss", 5)])
    ∧ ([] : Metrics) ≠ resumeTs0.metrics :=
  ⟨rfl, rfl, by decide⟩

theorem prefix_excl {a b s : List Char} (hlen : a.length = b.length) (hne : a ≠ b)
    (hb : b.isPrefixOf s = true) : a.isPrefixOf s = false := by
  by_contra hcon
  rw [Bool.not_eq_false, List.isPrefixOf_iff_prefix] at hcon
  rw [List.isPrefixOf_iff_prefix] at hb
  have ha' := List.prefix_iff_eq_take.mp hcon
  have hb' := List.prefix_iff_eq_take.mp hb
  rw [hlen] at ha'
  exact hne (ha'.trans hb'.symm)

theorem isBestCkpt_bestName (e : ℕ) : isBestCkpt (bestName e) = true := by
  unfold isBestCkpt bestName
  rw [Bool.and_eq_true, List.isPrefixOf_iff_prefix, List.isSuffixOf_iff_suffix]
  exact ⟨⟨(toString e).data ++ pthSuffix, by simp⟩,
    ⟨bestGlobPrefix ++ (toString e).data, by simp⟩⟩

theorem isLastCkpt_lastName (e : ℕ) : isLastCkpt (lastName e) = true := by
  unfold isLastCkpt lastName
  rw [Bool.and_eq_true, List.isPrefixOf_iff_prefix, List.isSuffixOf_iff_suffix]
  exact ⟨⟨(toString e).data ++ pthSuffix, by simp⟩,
    ⟨lastGlobPrefix ++ (toString e).data, by simp⟩⟩

theorem isLastCkpt_of_isBestCkpt {s : FName} (h : isBestCkpt s = true) :
    isLastCkpt s = false := by
  unfold isBestCkpt at h
  rw [Bool.and_eq_true] at h
  unfold isLastCkpt
  rw [prefix_excl (by decide) (by decide) h.1]
  rfl

theorem isBestCkpt_of_isLastCkpt {s : FName} (h : isLastCkpt s = true) :
    isBestCkpt s = false := by
  unfold isLastCkpt at h
  rw [Bool.and_eq_true] at h
  unfold isBestCkpt
  rw [prefix_excl (by decide) (by decide) h.1]
  rfl

theorem isLastCkpt_bestName (e : ℕ) : isLastCkpt (bestName e) = false :=
  isLastCkpt_of_isBestCkpt (isBestCkpt_bestName e)

theorem isBestCkpt_lastName (e : ℕ) : isBestCkpt (lastName e) = false :=
  isBestCkpt_of_isLastCkpt (isLastCkpt_lastName e)

theorem overwriteRename_eq_self (p : FName → Bool) (old newName : FName)
    (c : Ckpt) (hold : p old = true) :
    ∀ xs : WorkDir, xs.filter (fun q => p q.1) = [] →
      TrainerMisc.overwriteRename xs old newName c = xs := by
  intro xs
  induction xs with
  | nil => intro _; rfl
  | cons y ys ih =>
      intro hf
      rw [List.filter_cons] at hf
      by_cases hp : p y.1 = true
      · rw [if_pos hp] at hf
        cases hf
      · rw [if_neg (by simpa using hp)] at hf
        have hy : y.1 ≠ old := fun he => hp (he ▸ hold)
        simp only [TrainerMisc.overwriteRename, List.map_cons, if_neg hy]
        have := ih hf
        simp only [TrainerMisc.overwriteRename] at this
        rw [this]

theorem filter_overwriteRename_single (p : FName → Bool) (newName : FName)
    (c : Ckpt) (hnew : p newName = true) :
    ∀ (fs : WorkDir) (b : FName × Ckpt),
      fs.filter (fun q => p q.1) = [b] →
      (TrainerMisc.overwriteRename fs b.1 newName c).filter (fun q => p q.1)
        = [(newName, c)] := by
  intro fs
  induction fs with
  | nil => intro b hb; simp at hb
  | cons y ys ih =>
      intro b hb
      rw [List.filter_cons] at hb
      by_cases hp : p y.1 = true
      · rw [if_pos hp] at hb
        have hy : y = b := (List.cons_eq_cons.mp hb).1
        have hys : ys.filter (fun q => p q.1) = [] := (List.cons_eq_cons.mp hb).2
        subst hy
        simp only [TrainerMisc.overwriteRename, List.map_cons, if_true]
        rw [List.filter_cons, if_pos hnew]
        have hself := overwriteRename_eq_self p y.1 newName c hp ys hys
        simp only [TrainerMisc.overwriteRename] at hself
        rw [hself, hys]
      · rw [if_neg (by simpa using hp)] at hb
        have hpb : p b.1 = true := by
          have hmem : b ∈ ys.filter (fun q => p q.1) := by
            rw [hb]; exact List.mem_singleton_self b
          exact (List.mem_filter.mp hmem).2
        have hy : y.1 ≠ b.1 := fun he => hp (he ▸ hpb)
        simp only [TrainerMisc.overwriteRename, List.map_cons, if_neg hy]
        rw [List.filter_cons, if_neg (by simpa using hp)]
        have hrec := ih b hb
        simp only [TrainerMisc.overwriteRename] at hrec
        exact hrec

theorem filter_overwriteRename_frame (other : FName → Bool) (old newName : FName)
    (c : Ckpt) (hold : other old = false) (hnew : other newName = false) :
    ∀ fs : WorkDir,
      (TrainerMisc.overwriteRename fs old newName c).filter (fun q => other q.1)
        = fs.filter (fun q => other q.1) := by
  intro fs
  induction fs with
  | nil => rfl
  | cons y ys ih =>
      simp only [TrainerMisc.overwriteRename, List.map_cons]
      by_cases hy : y.1 = old
      · rw [if_pos hy, List.filter_cons, List.filter_cons,
          if_neg (by simp [hnew]), if_neg (by simp [hy, hold])]
        simpa [TrainerMisc.overwriteRename] using ih
      · rw [if_neg hy, List.filter_cons, List.filter_cons]
        by_cases ho : other y.1 = true
        · rw [if_pos ho, if_pos ho]
          simp only [TrainerMisc.overwriteRename] at ih
          rw [ih]
        · rw [if_neg (by simpa using ho), if_neg (by simpa using ho)]
          simpa [TrainerMisc.overwriteRename] using ih

theorem filter_append_singleton (p : FName → Bool) (fs : WorkDir)
    (x : FName × Ckpt) :
    (fs ++ [x]).filter (fun q => p q.1)
      = fs.filter (fun q => p q.1) ++ (if p x.1 then [x] else []) := by
  rw [List.filter_append]
  congr 1
  by_cases hx : p x.1 = true
  · rw [if_pos hx]
    simp [List.filter_cons, hx]
  · rw [if_neg (by simpa using hx)]
    simp [List.filter_cons, Bool.of_not_eq_true hx]

theorem save_best_step_ok (e : ℕ) (base : Ckpt) (flag : Bool) (fs : WorkDir)
    (hbest : (fs.filter (fun q => isBestCkpt q.1)).length ≤ 1) :
    ∃ fs1, TrainerMisc.save_best_step e base flag fs = .ok fs1
      ∧ (flag = true →
          fs1.filter (fun q => isBestCkpt q.1) = [(bestName e, base)])
      ∧ (flag = false →
          fs1.filter (fun q => isBestCkpt q.1) = fs.filter (fun q => isBestCkpt q.1))
      ∧ fs1.filter (fun q => isLastCkpt q.1) = fs.filter (fun q => isLastCkpt q.1) := by
  cases flag with
  | false =>
      refine ⟨fs, ?_, ?_, ?_, ?_⟩
      · simp [TrainerMisc.save_best_step]
      · intro h; cases h
      · intro _; rfl
      · rfl
  | true =>
      cases hfb : fs.filter (fun q => isBestCkpt q.1) with
      | nil =>
          refine ⟨fs ++ [(bestName e, base)], ?_, ?_, ?_, ?_⟩
          · simp [TrainerMisc.save_best_step, hfb]
          · intro _
            rw [filter_append_singleton, hfb, if_pos (isBestCkpt_bestName e)]
            rfl
          · intro h; cases h
          · rw [filter_append_singleton, if_neg (by simp [isLastCkpt_bestName])]
            simp
      | cons b tail =>
          cases tail with
          | nil =>
              have hb1 : isBestCkpt b.1 = true := by
                have hmem : b ∈ fs.filter (fun q => isBestCkpt q.1) := by
                  rw [hfb]; exact List.mem_singleton_self b
                exact (List.mem_filter.mp hmem).2
              refine ⟨TrainerMisc.overwriteRename fs b.1 (bestName e) base,
                ?_, ?_, ?_, ?_⟩
              · simp [TrainerMisc.save_best_step, hfb]
              · intro _
                exact filter_overwriteRename_single _ _ _ (isBestCkpt_bestName e) fs b hfb
              · intro h; cases h
              · exact filter_overwriteRename_frame _ _ _ _
                  (isLastCkpt_of_isBestCkpt hb1) (isLastCkpt_bestName e) fs
          | cons c tail2 =>
              rw [hfb] at hbest
              simp at hbest

theorem save_last_step_ok (e : ℕ) (lastC : Ckpt) (save_interval : ℕ)
    (fs1 : WorkDir)
    (hlast : (fs1.filter (fun q => isLastCkpt q.1)).length ≤ 1) :
    ∃ fs2, TrainerMisc.save_last_step e lastC save_interval fs1 = .ok fs2
      ∧ ((e + 1) % save_interval = 0 →
          fs2.filter (fun q => isLastCkpt q.1) = [(lastName e, lastC)])
      ∧ ((e + 1) % save_interval ≠ 0 → fs2 = fs1)
      ∧ fs2.filter (fun q => isBestCkpt q.1) = fs1.filter (fun q => isBestCkpt q.1) := by
  by_cases hsi : (e + 1) % save_interval = 0
  · cases hfl : fs1.filter (fun q => isLastCkpt q.1) with
    | nil =>
        refine ⟨fs1 ++ [(lastName e, lastC)], ?_, ?_, ?_, ?_⟩
        · simp [TrainerMisc.save_last_step, hsi, hfl]
        · intro _
          rw [filter_append_singleton, hfl, if_pos (isLastCkpt_lastName e)]
          rfl
        · intro h; exact absurd hsi h
        · rw [filter_append_singleton, if_neg (by simp [isBestCkpt_lastName])]
          simp
    | cons b tail =>
        cases tail with
        | nil =>
            have hb1 : isLastCkpt b.1 = true := by
              have hmem : b ∈ fs1.filter (fun q => isLastCkpt q.1) := by
                rw [hfl]; exact List.mem_singleton_self b
              exact (List.mem_filter.mp hmem).2
            refine ⟨TrainerMisc.overwriteRename fs1 b.1 (lastName e) lastC,
              ?_, ?_, ?_, ?_⟩
            · simp [TrainerMisc.save_last_step, hsi, hfl]
            · intro _
              exact filter_overwriteRename_single _ _ _ (isLastCkpt_lastName e) fs1 b hfl
            · intro h; exact absurd hsi h
            · exact filter_overwriteRename_frame _ _ _ _
                (isBestCkpt_of_isLastCkpt hb1) (isBestCkpt_lastName e) fs1
        | cons c tail2 =>
            rw [hfl] at hlast
            simp at hlast
  · refine ⟨fs1, ?_, ?_, ?_, ?_⟩
    · simp [TrainerMisc.save_last_step, hsi]
    · intro h; exact absurd h hsi
    · intro _; rfl
    · rfl

/-- C3: on the main process, starting from a work dir holding at most one
best and at most one last checkpoint file, `save_checkpoint` passes its
assertions and keeps the invariant: at most one file of each kind remains;
when the metrics improve the single best file afterwards is exactly the
new `checkpoint_best_epoch_{epoch}.pth` (the old one was overwritten in
place and renamed — never a second file); the last-checkpoint globs are
untouched unless `(epoch + 1)` is divisible by `save_interval`, in which
case the single last file afterwards is exactly
`checkpoint_last_epoch_{epoch}.pth`. -/
theorem C3_save_checkpoint_invariant
    (choose_best : Metrics → Metrics → Metrics × Bool) (save_interval : ℕ)
    (amp device : Bool) (ts : TrainerStatus) (fs : WorkDir)
    (hbest : (fs.filter (fun q => isBestCkpt q.1)).length ≤ 1)
    (hlast : (fs.filter (fun q => isLastCkpt q.1)).length ≤ 1) :
    (∃ r, TrainerMisc.save_checkpoint true choose_best save_interval amp device ts fs
        = .ok r)
    ∧ ∀ ts' fs',
        TrainerMisc.save_checkpoint true choose_best save_interval amp device ts fs
          = .ok (ts', fs') →
        (fs'.filter (fun q => isBestCkpt q.1)).length ≤ 1
        ∧ (fs'.filter (fun q => isLastCkpt q.1)).length ≤ 1
        ∧ ((choose_best ts.metrics ts.best_metrics).2 = true →
            fs'.filter (fun q => isBestCkpt q.1)
              = [(bestName ts.epoch,
                  TrainerMisc.save_files_base ts
                    (choose_best ts.metrics ts.best_metrics).1 ts.epoch)])
        ∧ ((choose_best ts.metrics ts.best_metrics).2 = false →
            fs'.filter (fun q => isBestCkpt q.1)
              = fs.filter (fun q => isBestCkpt q.1))
        ∧ ((ts.epoch + 1) % save_interval ≠ 0 →
            fs'.filter (fun q => isLastCkpt q.1)
              = fs.filter (fun q => isLastCkpt q.1))
        ∧ ((ts.epoch + 1) % save_interval = 0 →
            fs'.filter (fun q => isLastCkpt q.1)
              = [(lastName ts.epoch,
                  TrainerMisc.save_files_last ts
                    (choose_best ts.metrics ts.best_metrics).1 ts.epoch amp device)]) := by
  obtain ⟨fs1, h1, h1t, h1f, h1last⟩ :=
    save_best_step_ok ts.epoch
      (TrainerMisc.save_files_base ts (choose_best ts.metrics ts.best_metrics).1 ts.epoch)
      (choose_best ts.metrics ts.best_metrics).2 fs hbest
  have hlast1 : (fs1.filter (fun q => isLastCkpt q.1)).length ≤ 1 := by
    rw [h1last]; exact hlast
  obtain ⟨fs2, h2, h2div, h2ndiv, h2best⟩ :=
    save_last_step_ok ts.epoch
      (TrainerMisc.save_files_last ts (choose_best ts.metrics ts.best_metrics).1
        ts.epoch amp device) save_interval fs1 hlast1
  have hrun : TrainerMisc.save_checkpoint true choose_best save_interval amp device ts fs
      = .ok ({ ts with best_metrics := (choose_best ts.metrics ts.best_metrics).1 }, fs2) := by
    simp [TrainerMisc.save_checkpoint, h1, h2, Bind.bind, Except.bind]
  constructor
  · exact ⟨_, hrun⟩
  · intro ts' fs' hok
    rw [hrun] at hok
    have hfs' : fs' = fs2 := by
      cases hok; rfl
    subst hfs'
    have hbest2 : (fs'.filter (fun q => isBestCkpt q.1)).length ≤ 1 := by
      rw [h2best]
      cases hflag : (choose_best ts.metrics ts.best_metrics).2 with
      | true => rw [h1t hflag]; simp
      | false => rw [h1f hflag]; exact hbest
    have hlast2 : (fs'.filter (fun q => isLastCkpt q.1)).length ≤ 1 := by
      by_cases hsi : (ts.epoch + 1) % save_interval = 0
      · rw [h2div hsi]; simp
      · rw [h2ndiv hsi, h1last]; exact hlast
    refine ⟨hbest2, hlast2, ?_, ?_, ?_, ?_⟩
    · intro hflag
      rw [h2best, h1t hflag]
    · intro hflag
      rw [h2best, h1f hflag]
    · intro hsi
      rw [h2ndiv hsi, h1last]
    · intro hsi
      exact h2div hsi

/-- C3, instantiated: first epoch, improving metrics, empty work dir,
save interval 1. -/
theorem C3_save_checkpoint_invariant_witness :
    (∃ r, TrainerMisc.save_checkpoint true (fun m _ => (m, true)) 1 false false
        ⟨10, 11, 12, 13, 1, 1, [], [], 7, 7⟩ [] = .ok r)
    ∧ ∀ ts' fs',
        TrainerMisc.save_checkpoint true (fun m _ => (m, true)) 1 false false
            ⟨10, 11, 12, 13, 1, 1, [], [], 7, 7⟩ []
          = .ok (ts', fs') →
        (fs'.filter (fun q => isBestCkpt q.1)).length ≤ 1
        ∧ (fs'.filter (fun q => isLastCkpt q.1)).length ≤ 1
        ∧ (((fun (m _ : Metrics) => (m, true))
              (⟨10, 11, 12, 13, 1, 1, [], [], 7, 7⟩ : TrainerStatus).metrics
              (⟨10, 11, 12, 13, 1, 1, [], [], 7, 7⟩ : TrainerStatus).best_metrics).2 = true →
            fs'.filter (fun q => isBestCkpt q.1)
              = [(bestName (⟨10, 11, 12, 13, 1, 1, [], [], 7, 7⟩ : TrainerStatus).epoch,
                  TrainerMisc.save_files_base ⟨10, 11, 12, 13, 1, 1, [], [], 7, 7⟩
                    ((fun (m _ : Metrics) => (m, true))
                      (⟨10, 11, 12, 13, 1, 1, [], [], 7, 7⟩ : TrainerStatus).metrics
                      (⟨10, 11, 12, 13, 1, 1, [], [], 7, 7⟩ : TrainerStatus).best_metrics).1
                    (⟨10, 11, 12, 13, 1, 1, [], [], 7, 7⟩ : TrainerStatus).epoch)])
        ∧ (((fun (m _ : Metrics) => (m, true))
              (⟨10, 11, 12, 13, 1, 1, [], [], 7, 7⟩ : TrainerStatus).metrics
              (⟨10, 11, 12, 13, 1, 1, [], [], 7, 7⟩ : TrainerStatus).best_metrics).2 = false →
            fs'.filter (fun q => isBestCkpt q.1)
              = ([] : WorkDir).filter (fun q => isBestCkpt q.1))
        ∧ (((⟨10, 11, 12, 13, 1, 1, [], [], 7, 7⟩ : TrainerStatus).epoch + 1) % 1 ≠ 0 →
            fs'.filter (fun q => isLastCkpt q.1)
              = ([] : WorkDir).filter (fun q => isLastCkpt q.1))
        ∧ (((⟨10, 11, 12, 13, 1, 1, [], [], 7, 7⟩ : TrainerStatus).epoch + 1) % 1 = 0 →
            fs'.filter (fun q => isLastCkpt q.1)
              = [(lastName (⟨10, 11, 12, 13, 1, 1, [], [], 7, 7⟩ : TrainerStatus).epoch,
                  TrainerMisc.save_files_last ⟨10, 11, 12, 13, 1, 1, [], [], 7, 7⟩
                    ((fun (m _ : Metrics) => (m, true))
                      (⟨10, 11, 12, 13, 1, 1, [], [], 7, 7⟩ : TrainerStatus).metrics
                      (⟨10, 11, 12, 13, 1, 1, [], [], 7, 7⟩ : TrainerStatus).best_metrics).1
                    (⟨10, 11, 12, 13, 1, 1, [], [], 7, 7⟩ : TrainerStatus).epoch false false)]) :=
  C3_save_checkpoint_invariant (fun m _ => (m, true)) 1 false false
    ⟨10, 11, 12, 13, 1, 1, [], [], 7, 7⟩ [] (by simp) (by simp)

/-! ## DataModuleBase.collate_fn (data_module_base.py lines 46-77)

A sample is a dict from string keys to values: tensors (shape plus flat
integer data), strings, nested dicts, or anything else (`other`).  The
batch output maps keys to stacked tensors, `TensorMisc.NoCudaList`s of the
gathered values, or recursively collated dicts.  In the recursive call
`collate_fn(list(map(lambda d: d[k], data)))` the new `data[0]` is
`data[0][k]`, i.e. exactly the dict of the template value `v` the loop
already holds, so the embedding recurses on that template dict. -/

structure TensorS where
  shape : List ℕ
  data : List ℤ
deriving Repr, DecidableEq

inductive Value where
  | tensor (t : TensorS)
  | str (s : String)
  | dict (d : List (String × Value))
  | other
deriving Repr

abbrev VDict := List (String × Value)

inductive BValue where
  | tensor (t : TensorS)
  | ncList (l : List Value)
  | dict (d : List (String × BValue))
deriving Repr

namespace DataModuleBase

/-- `list(map(lambda d: d[k], data))`: every sample's value at `k`. -/
def getAll (k : String) : List VDict → Except String (List Value)
  | [] => .ok []
  | d :: ds => do
      let v ← match d.lookup k with
        | some v => Except.ok v
        | none => Except.error "KeyError"
      let vs ← getAll k ds
      Except.ok (v :: vs)

/-- `torch.stack` demands actual tensors. -/
def toTensors : List Value → Except String (List TensorS)
  | [] => .ok []
  | .tensor t :: vs => do
      let ts ← toTensors vs
      Except.ok (t :: ts)
  | _ :: _ => .error "TypeError: expected Tensor"

/-- The recursive call iterates `d[k].items()`, demanding dicts. -/
def toDicts : List Value → Except String (List VDict)
  | [] => .ok []
  | .dict d :: vs => do
      let ds ← toDicts vs
      Except.ok (d :: ds)
  | _ :: _ => .error "TypeError: expected dict"

mutual

/-- The loop body of `collate_fn` for one template entry list. -/
def collateEntries (entries : VDict) (data : List VDict) :
    Except String (List (String × BValue)) :=
  match entries with
  | [] => .ok []
  | (k, v) :: rest => do
      let vals ← getAll k data
      let bv ← collateVal v vals
      let brest ← collateEntries rest data
      Except.ok ((k, bv) :: brest)

/-- One key's collation, dispatching on the template value's type. -/
def collateVal (v : Value) (vals : List Value) : Except String BValue :=
  match v with
  | .tensor t0 => do
      let ts ← toTensors vals
      if ts.all (fun t => t.shape = t0.shape) then
        Except.ok (.tensor ⟨ts.length :: t0.shape, (ts.map TensorS.data).flatten⟩)
      else Except.error "RuntimeError: stack expects each tensor to be equal size"
  | .str _ => .ok (.ncList vals)
  | .dict d0 => do
      let ds ← toDicts vals
      let sub ← collateEntries d0 ds
      Except.ok (.dict sub)
  | .other => .error "NotImplementedError"

end

/-- `DataModuleBase.collate_fn`: the first sample's keys drive the batch. -/
def collate_fn (data : List VDict) : Except String (List (String × BValue)) :=
  match data with
  | [] => .error "IndexError: data[0]"
  | d0 :: _ => collateEntries d0 data

end DataModuleBase

/-- "Same keys and value shapes as the first element": the batch template
relation.  Tensor values must share the template's shape, strings match
strings, nested dicts carry the same key list with position-wise
compatible values, and an `other` value only matches another `other`. -/
inductive Compat : Value → Value → Prop where
  | tensor (t0 t : TensorS) (h : t.shape = t0.shape) :
      Compat (.tensor t0) (.tensor t)
  | str (s0 s : String) : Compat (.str s0) (.str s)
  | dict (d0 d : VDict) (hk : d.map Prod.fst = d0.map Prod.fst)
      (hlen : d.length = d0.length)
      (hv : ∀ p ∈ d0.zip d, Compat p.1.2 p.2.2) :
      Compat (.dict d0) (.dict d)
  | other : Compat .other .other

mutual

/-- Whether a value holds, anywhere inside, something that is neither a
tensor, a string nor a dict. -/
def hasOther : Value → Bool
  | .tensor _ => false
  | .str _ => false
  | .dict d => hasOtherEntries d
  | .other => true

def hasOtherEntries : VDict → Bool
  | [] => false
  | (_, v) :: rest => hasOther v || hasOtherEntries rest

end

mutual

/-- Every dict reachable from the value has pairwise distinct keys (true
of every Python dict). -/
def nodupKeys : Value → Bool
  | .dict d => nodupKeysEntries d
  | _ => true

def nodupKeysEntries : VDict → Bool
  | [] => true
  | (k, v) :: rest =>
      !((rest.map Prod.fst).contains k) && nodupKeys v && nodupKeysEntries rest

end

/-- What `collate_fn` produces for one key, given the template value `v`
and the batch's gathered values `vals`: tensors are stacked along a new
leading dimension of size `len(data)`, strings are gathered into a
`NoCudaList`, nested dicts are collated recursively. -/
def CharacV (v : Value) (vals : List Value) (bv : BValue) : Prop :=
  match v with
  | .tensor t0 => ∃ ts, DataModuleBase.toTensors vals = .ok ts
      ∧ ts.length = vals.length
      ∧ bv = .tensor ⟨vals.length :: t0.shape, (ts.map TensorS.data).flatten⟩
  | .str _ => bv = .ncList vals
  | .dict d0 => ∃ ds sub, DataModuleBase.toDicts vals = .ok ds
      ∧ ds.length = vals.length
      ∧ DataModuleBase.collateEntries d0 ds = .ok sub ∧ bv = .dict sub
      ∧ sub.map Prod.fst = d0.map Prod.fst
  | .other => False

theorem lookup_some_mem_keys {β : Type} (k : String) :
    ∀ (l : List (String × β)) (v : β), l.lookup k = some v →
      k ∈ l.map Prod.fst := by
  intro l
  induction l with
  | nil => intro v h; cases h
  | cons p rest ih =>
      intro v h
      obtain ⟨k1, v1⟩ := p
      rw [List.lookup_cons] at h
      by_cases hk : k = k1
      · subst hk; simp
      · have hbeq : (k == k1) = false := by simpa using hk
        rw [hbeq] at h
        simp only [List.map_cons]
        exact List.mem_cons_of_mem _ (ih v h)

theorem getAll_ok (k : String) :
    ∀ (data : List VDict), (∀ d ∈ data, ∃ v, d.lookup k = some v) →
      ∃ vals, DataModuleBase.getAll k data = .ok vals
        ∧ vals.length = data.length
        ∧ List.Forall₂ (fun d val => d.lookup k = some val) data vals := by
  intro data
  induction data with
  | nil => exact fun _ => ⟨[], rfl, rfl, List.Forall₂.nil⟩
  | cons d ds ih =>
      intro h
      obtain ⟨v, hv⟩ := h d (List.mem_cons_self _ _)
      obtain ⟨vals, hg, hlen, hf⟩ := ih (fun d' hd' => h d' (List.mem_cons_of_mem _ hd'))
      refine ⟨v :: vals, ?_, by simp [hlen], List.Forall₂.cons hv hf⟩
      simp [DataModuleBase.getAll, hv, hg, Bind.bind, Except.bind]

theorem toTensors_ok (shape : List ℕ) :
    ∀ (vals : List Value),
      (∀ w ∈ vals, ∃ t : TensorS, w = .tensor t ∧ t.shape = shape) →
      ∃ ts, DataModuleBase.toTensors vals = .ok ts
        ∧ ts.length = vals.length ∧ ∀ t ∈ ts, t.shape = shape := by
  intro vals
  induction vals with
  | nil => exact fun _ => ⟨[], rfl, rfl, by simp⟩
  | cons w ws ih =>
      intro h
      obtain ⟨t, hw, hsh⟩ := h w (List.mem_cons_self _ _)
      obtain ⟨ts, hts, hlen, hall⟩ := ih (fun w' hw' => h w' (List.mem_cons_of_mem _ hw'))
      subst hw
      refine ⟨t :: ts, ?_, by simp [hlen], ?_⟩
      · simp [DataModuleBase.toTensors, hts, Bind.bind, Except.bind]
      · intro t' ht'
        rcases List.mem_cons.mp ht' with h1 | h1
        · subst h1; exact hsh
        · exact hall t' h1

theorem toDicts_ok (P : VDict → Prop) :
    ∀ (vals : List Value), (∀ w ∈ vals, ∃ d, w = .dict d ∧ P d) →
      ∃ ds, DataModuleBase.toDicts vals = .ok ds
        ∧ ds.length = vals.length ∧ ∀ d ∈ ds, P d := by
  intro vals
  induction vals with
  | nil => exact fun _ => ⟨[], rfl, rfl, by simp⟩
  | cons w ws ih =>
      intro h
      obtain ⟨d, hw, hd⟩ := h w (List.mem_cons_self _ _)
      obtain ⟨ds, hds, hlen, hall⟩ := ih (fun w' hw' => h w' (List.mem_cons_of_mem _ hw'))
      subst hw
      refine ⟨d :: ds, ?_, by simp [hlen], ?_⟩
      · simp [DataModuleBase.toDicts, hds, Bind.bind, Except.bind]
      · intro d' hd'
        rcases List.mem_cons.mp hd' with h1 | h1
        · subst h1; exact hd
        · exact hall d' h1

theorem lookup_compat : ∀ (d0 d : VDict),
    d.map Prod.fst = d0.map Prod.fst →
    (∀ p ∈ d0.zip d, Compat p.1.2 p.2.2) →
    ∀ k v0, d0.lookup k = some v0 → ∃ v, d.lookup k = some v ∧ Compat v0 v := by
  intro d0
  induction d0 with
  | nil => intro d _ _ k v0 h; cases h
  | cons p0 d0' ih =>
      intro d hk hv k' w0 hl
      obtain ⟨k0, v0'⟩ := p0
      cases d with
      | nil => cases hk
      | cons p1 d' =>
          obtain ⟨k1, v'⟩ := p1
          simp only [List.map_cons, List.cons_eq_cons] at hk
          obtain ⟨hkk, htl⟩ := hk
          subst hkk
          rw [List.lookup_cons] at hl ⊢
          by_cases he : k' = k1
          · subst he
            have hbeq : (k' == k') = true := by simp
            rw [hbeq] at hl ⊢
            cases hl
            exact ⟨v', rfl, hv ((k', w0), (k', v')) (by simp)⟩
          · have hbeq : (k' == k1) = false := by simpa using he
            rw [hbeq] at hl ⊢
            exact ih d' htl
              (fun p hp => hv p (List.mem_cons_of_mem _ hp)) k' w0 hl

theorem forall₂_mem_right {α β : Type} {R : α → β → Prop} :
    ∀ {l1 : List α} {l2 : List β}, List.Forall₂ R l1 l2 →
      ∀ b ∈ l2, ∃ a ∈ l1, R a b := by
  intro l1 l2 h
  induction h with
  | nil => intro b hb; cases hb
  | cons hR hrest ih =>
      intro b hb
      rcases List.mem_cons.mp hb with h1 | h1
      · subst h1; exact ⟨_, List.mem_cons_self _ _, hR⟩
      · obtain ⟨a, ha, hr⟩ := ih b h1
        exact ⟨a, List.mem_cons_of_mem _ ha, hr⟩

mutual

theorem collateEntries_spec : ∀ (entries : VDict) (data : List VDict),
    nodupKeysEntries entries = true →
    (∀ d ∈ data, ∀ k v0, entries.lookup k = some v0 →
      ∃ v, d.lookup k = some v ∧ Compat v0 v) →
    ((hasOtherEntries entries = false →
      ∃ b, DataModuleBase.collateEntries entries data = .ok b
        ∧ b.map Prod.fst = entries.map Prod.fst
        ∧ ∀ (i : ℕ) (k : String) (v0 : Value), entries[i]? = some (k, v0) →
            ∃ vals bv, DataModuleBase.getAll k data = .ok vals
              ∧ vals.length = data.length
              ∧ b[i]? = some (k, bv) ∧ CharacV v0 vals bv)
    ∧ (hasOtherEntries entries = true →
        DataModuleBase.collateEntries entries data = .error "NotImplementedError"))
  | [], data, hnd, hent => by
      constructor
      · intro _
        refine ⟨[], by simp [DataModuleBase.collateEntries], rfl, ?_⟩
        intro i k v0 h
        simp at h
      · intro h
        simp [hasOtherEntries] at h
  | (k, v) :: rest, data, hnd, hent => by
      have hnd3 : ((rest.map Prod.fst).contains k) = false
          ∧ nodupKeys v = true ∧ nodupKeysEntries rest = true := by
        simp only [nodupKeysEntries, Bool.and_eq_true, Bool.not_eq_true'] at hnd
        exact ⟨hnd.1.1, hnd.1.2, hnd.2⟩
      have hheadLk : (((k, v) :: rest).lookup k) = some v := by simp
      obtain ⟨vals, hg, hlen, hf⟩ := getAll_ok k data
        (fun d hd => (hent d hd k v hheadLk).imp (fun v' hv' => hv'.1))
      have hcv : ∀ w ∈ vals, Compat v w := by
        intro w hw
        obtain ⟨d, hd, hdw⟩ := forall₂_mem_right hf w hw
        obtain ⟨v', hv', hcc⟩ := hent d hd k v hheadLk
        rw [hv'] at hdw
        cases hdw
        exact hcc
      obtain ⟨hvOk, hvErr⟩ := collateVal_spec v vals hnd3.2.1 hcv
      cases hov : hasOther v with
      | true =>
          constructor
          · intro h
            simp [hasOtherEntries, hov] at h
          · intro _
            simp [DataModuleBase.collateEntries, hg, hvErr hov,
              Bind.bind, Except.bind]
      | false =>
          obtain ⟨bv, hbv, hch⟩ := hvOk hov
          have hentR : ∀ d ∈ data, ∀ k' v0, rest.lookup k' = some v0 →
              ∃ v', d.lookup k' = some v' ∧ Compat v0 v' := by
            intro d hd k' v0 hl
            apply hent d hd k' v0
            have hk' : k' ∈ rest.map Prod.fst := lookup_some_mem_keys k' rest v0 hl
            have hne : k' ≠ k := by
              intro he
              subst he
              have hcon := hnd3.1
              have : (rest.map Prod.fst).contains k' = true :=
                List.elem_eq_true_of_mem hk'
              rw [this] at hcon
              cases hcon
            rw [List.lookup_cons]
            have hbeq : (k' == k) = false := by simpa using hne
            rw [hbeq]
            exact hl
          obtain ⟨hrOk, hrErr⟩ := collateEntries_spec rest data hnd3.2.2 hentR
          cases hor : hasOtherEntries rest with
          | true =>
              constructor
              · intro h
                simp [hasOtherEntries, hor] at h
              · intro _
                simp [DataModuleBase.collateEntries, hg, hbv, hrErr hor,
                  Bind.bind, Except.bind]
          | false =>
              obtain ⟨brest, hbrest, hkeys, hchar⟩ := hrOk hor
              constructor
              · intro _
                refine ⟨(k, bv) :: brest, ?_, by simp [hkeys], ?_⟩
                · simp [DataModuleBase.collateEntries, hg, hbv, hbrest,
                    Bind.bind, Except.bind]
                · intro i k' v0 hi
                  cases i with
                  | zero =>
                      simp only [List.getElem?_cons_zero, Option.some.injEq] at hi
                      cases hi
                      exact ⟨vals, bv, hg, hlen, by simp, hch⟩
                  | succ j =>
                      simp only [List.getElem?_cons_succ] at hi ⊢
                      exact hchar j k' v0 hi
              · intro h
                simp [hasOtherEntries, hov, hor] at h

theorem collateVal_spec : ∀ (v : Value) (vals : List Value),
    nodupKeys v = true → (∀ w ∈ vals, Compat v w) →
    ((hasOther v = false →
      ∃ bv, DataModuleBase.collateVal v vals = .ok bv ∧ CharacV v vals bv)
    ∧ (hasOther v = true →
        DataModuleBase.collateVal v vals = .error "NotImplementedError"))
  | .tensor t0, vals, _, hc => by
      constructor
      · intro _
        have hall : ∀ w ∈ vals, ∃ t : TensorS, w = .tensor t ∧ t.shape = t0.shape := by
          intro w hw
          cases hc w hw with
          | tensor t0' t h => exact ⟨t, rfl, h⟩
        obtain ⟨ts, hts, hlen, hsh⟩ := toTensors_ok t0.shape vals hall
        refine ⟨.tensor ⟨ts.length :: t0.shape, (ts.map TensorS.data).flatten⟩,
          ?_, ts, hts, hlen, by rw [hlen]⟩
        have hallb : ts.all (fun t => decide (t.shape = t0.shape)) = true := by
          simp only [List.all_eq_true, decide_eq_true_eq]
          exact hsh
        simp [DataModuleBase.collateVal, hts, hallb, Bind.bind, Except.bind]
      · intro h
        simp [hasOther] at h
  | .str s, vals, _, _ => by
      constructor
      · intro _
        exact ⟨.ncList vals, by simp [DataModuleBase.collateVal], rfl⟩
      · intro h
        simp [hasOther] at h
  | .dict d0, vals, hnv, hc => by
      have hnd0 : nodupKeysEntries d0 = true := by simpa [nodupKeys] using hnv
      have hall : ∀ w ∈ vals, ∃ d, w = .dict d
          ∧ (d.map Prod.fst = d0.map Prod.fst ∧ d.length = d0.length
            ∧ ∀ p ∈ d0.zip d, Compat p.1.2 p.2.2) := by
        intro w hw
        cases hc w hw with
        | dict d0' d hk hlen hv => exact ⟨d, rfl, hk, hlen, hv⟩
      obtain ⟨ds, hds, hdslen, hP⟩ := toDicts_ok _ vals hall
      have hent : ∀ d ∈ ds, ∀ k v0, d0.lookup k = some v0 →
          ∃ v', d.lookup k = some v' ∧ Compat v0 v' := by
        intro d hd k v0 hl
        obtain ⟨hk, hlen, hv⟩ := hP d hd
        exact lookup_compat d0 d hk hv k v0 hl
      obtain ⟨hOk, hErr⟩ := collateEntries_spec d0 ds hnd0 hent
      constructor
      · intro hno
        have hno' : hasOtherEntries d0 = false := by simpa [hasOther] using hno
        obtain ⟨sub, hsub, hkeys, _⟩ := hOk hno'
        exact ⟨.dict sub,
          by simp [DataModuleBase.collateVal, hds, hsub, Bind.bind, Except.bind],
          ds, sub, hds, hdslen, hsub, rfl, hkeys⟩
      · intro ho
        have ho' : hasOtherEntries d0 = true := by simpa [hasOther] using ho
        simp [DataModuleBase.collateVal, hds, hErr ho', Bind.bind, Except.bind]
  | .other, vals, _, _ => by
      constructor
      · intro h
        simp [hasOther] at h
      · intro _
        simp [DataModuleBase.collateVal]

end

/-- C8: for a non-empty batch whose samples all have the first sample's
keys, value types and tensor shapes (and whose dicts, like Python dicts,
have no duplicate keys), `collate_fn` — unless some template value is of
an unsupported type, in which case it raises `NotImplementedError` —
returns a dict with exactly the first sample's keys where a tensor key
holds the stack of that key's tensors over the whole batch along a new
leading dimension of size `len(data)`, a string key holds the
`NoCudaList` of that key's values over the batch, and a nested-dict key
is collated by the same rule recursively (see `CharacV`). -/
theorem C8_collate_fn (d0 : VDict) (rest : List VDict)
    (hnd : nodupKeysEntries d0 = true)
    (hc : ∀ d ∈ (d0 :: rest), Compat (.dict d0) (.dict d)) :
    (hasOtherEntries d0 = false →
      ∃ b, DataModuleBase.collate_fn (d0 :: rest) = .ok b
        ∧ b.map Prod.fst = d0.map Prod.fst
        ∧ ∀ (i : ℕ) (k : String) (v0 : Value), d0[i]? = some (k, v0) →
            ∃ vals bv, DataModuleBase.getAll k (d0 :: rest) = .ok vals
              ∧ vals.length = (d0 :: rest).length
              ∧ b[i]? = some (k, bv) ∧ CharacV v0 vals bv)
    ∧ (hasOtherEntries d0 = true →
        DataModuleBase.collate_fn (d0 :: rest) = .error "NotImplementedError") := by
  have hent : ∀ d ∈ (d0 :: rest), ∀ k v0, d0.lookup k = some v0 →
      ∃ v, d.lookup k = some v ∧ Compat v0 v := by
    intro d hd k v0 hl
    cases hc d hd with
    | dict d0' d' hk hlen hv => exact lookup_compat d0 d hk hv k v0 hl
  obtain ⟨hOk, hErr⟩ := collateEntries_spec d0 (d0 :: rest) hnd hent
  constructor
  · intro hno
    obtain ⟨b, hb, hkeys, hchar⟩ := hOk hno
    exact ⟨b, by simpa [DataModuleBase.collate_fn] using hb, hkeys, hchar⟩
  · intro ho
    simpa [DataModuleBase.collate_fn] using hErr ho

/-- C8, instantiated on a two-sample batch with a tensor key and a string
key. -/
theorem C8_collate_fn_witness :
    (hasOtherEntries [("x", Value.tensor ⟨[2], [1, 2]⟩), ("s", Value.str "a")] = false →
      ∃ b, DataModuleBase.collate_fn
          ([("x", Value.tensor ⟨[2], [1, 2]⟩), ("s", Value.str "a")]
            :: [[("x", Value.tensor ⟨[2], [3, 4]⟩), ("s", Value.str "b")]]) = .ok b
        ∧ b.map Prod.fst
            = [("x", Value.tensor ⟨[2], [1, 2]⟩), ("s", Value.str "a")].map Prod.fst
        ∧ ∀ (i : ℕ) (k : String) (v0 : Value),
            [("x", Value.tensor ⟨[2], [1, 2]⟩), ("s", Value.str "a")][i]? = some (k, v0) →
            ∃ vals bv, DataModuleBase.getAll k
                ([("x", Value.tensor ⟨[2], [1, 2]⟩), ("s", Value.str "a")]
                  :: [[("x", Value.tensor ⟨[2], [3, 4]⟩), ("s", Value.str "b")]]) = .ok vals
              ∧ vals.length
                  = ([("x", Value.tensor ⟨[2], [1, 2]⟩), ("s", Value.str "a")]
                      :: [[("x", Value.tensor ⟨[2], [3, 4]⟩), ("s", Value.str "b")]]).length
              ∧ b[i]? = some (k, bv) ∧ CharacV v0 vals bv)
    ∧ (hasOtherEntries [("x", Value.tensor ⟨[2], [1, 2]⟩), ("s", Value.str "a")] = true →
        DataModuleBase.collate_fn
          ([("x", Value.tensor ⟨[2], [1, 2]⟩), ("s", Value.str "a")]
            :: [[("x", Value.tensor ⟨[2], [3, 4]⟩), ("s", Value.str "b")]])
          = .error "NotImplementedError") :=
  C8_collate_fn [("x", Value.tensor ⟨[2], [1, 2]⟩), ("s", Value.str "a")]
    [[("x", Value.tensor ⟨[2], [3, 4]⟩), ("s", Value.str "b")]]
    (by decide)
    (by
      intro d hd
      simp only [List.mem_cons, List.mem_singleton] at hd
      rcases hd with h | h | h
      · subst h
        refine Compat.dict _ _ rfl rfl ?_
        intro p hp
        simp only [List.zip_cons_cons, List.mem_cons] at hp
        rcases hp with h1 | h1 | h1
        · subst h1; exact Compat.tensor _ _ rfl
        · subst h1; exact Compat.str _ _
        · cases h1
      · subst h
        refine Compat.dict _ _ rfl rfl ?_
        intro p hp
        simp only [List.zip_cons_cons, List.mem_cons] at hp
        rcases hp with h1 | h1 | h1
        · subst h1; exact Compat.tensor _ _ rfl
        · subst h1; exact Compat.str _ _
        · cases h1
      · cases h)
